import Mathlib

/-!
# Verification of the `py_structure` import-graph analyzer

A shallow embedding, in Lean 4, of the core of `py_structure.py`: Python
strings are modelled as `List Char`, Python's string/path operations as
executable Lean functions with the same semantics, and the analyzer's
functions (`get_module_name`, `resolve_relative_import`, `analyze_imports`,
`build_reverse_dep_graph` + `trace_dependency_paths`, and the query-mode
computations from `main`) as Lean definitions translated line by line from
the source.  File-system facts (`os.path.isfile`) are abstracted as an
explicit boolean predicate, and `os.path.abspath` is the identity on the
already-absolute, already-normalized paths used throughout.
-/

/-- A Python string, modelled as its list of characters. -/
abbrev PyStr := List Char

/-- An import edge `(callerModuleId, targetIdentifier)`. -/
abbrev ImpEdge := PyStr × PyStr

/-- Python `s.split(sep)` for a one-character separator `sep`:
splits at every occurrence and never returns an empty list
(`"".split(sep) == [""]`, `"a//b".split("/") == ["a","","b"]`). -/
def pySplit (sep : Char) : PyStr → List PyStr
  | [] => [[]]
  | c :: rest =>
    match pySplit sep rest with
    | h :: t => if c = sep then [] :: h :: t else (c :: h) :: t
    | [] => [[c]]

/-- Python `sep.join(parts)`. -/
def pyJoin (sep : PyStr) : List PyStr → PyStr
  | [] => []
  | [p] => p
  | p :: q :: rest => p ++ sep ++ pyJoin sep (q :: rest)

/-- Python `s.startswith(p)`. -/
def pyStartsWith : PyStr → PyStr → Bool
  | _, [] => true
  | [], _ :: _ => false
  | c :: s, d :: p => decide (c = d) && pyStartsWith s p

/-- Python `s.endswith(p)`. -/
def pyEndsWith (s p : PyStr) : Bool :=
  pyStartsWith s.reverse p.reverse

/-- Python `l[:-k]` on a list (empty when `k = 0`, otherwise the list
without its last `k` elements). -/
def pySliceUpToNeg (l : List PyStr) (k : Nat) : List PyStr :=
  if k = 0 then [] else l.take (l.length - k)

/-- `os.path.join(base, *parts)` for a base path and relative components
(no component is absolute, the base does not end in a separator — true of
every call site in the source). -/
def osJoin (base : PyStr) (parts : List PyStr) : PyStr :=
  parts.foldl (fun acc p => acc ++ '/' :: p) base

/-- The component-wise common-prefix length of two segment lists, as used
by `posixpath.relpath` via `os.path.commonprefix`. -/
def commonPrefixLen : List PyStr → List PyStr → Nat
  | x :: xs, y :: ys => if x = y then commonPrefixLen xs ys + 1 else 0
  | _, _ => 0

/-- `os.path.relpath(path, start)` on absolute, normalized POSIX paths:
split both on the separator, drop empty components, strip the common
prefix, prepend one `..` per remaining `start` component. -/
def relpath (path start : PyStr) : PyStr :=
  let path_list := (pySplit '/' path).filter (fun x => !x.isEmpty)
  let start_list := (pySplit '/' start).filter (fun x => !x.isEmpty)
  let i := commonPrefixLen start_list path_list
  let rel_list :=
    List.replicate (start_list.length - i) "..".toList ++ path_list.drop i
  if rel_list.isEmpty then ".".toList else pyJoin ['/'] rel_list

/-- `get_module_name(root, file_path)` (source lines 7-16).  Both paths are
taken as already absolute and normalized, so `os.path.abspath` is the
identity.  Note that the `startswith` test is a plain string-prefix test,
and the `relpath ... startswith ".."` test is the safety guard. -/
def get_module_name (root file_path : PyStr) : Option PyStr :=
  if !(pyEndsWith file_path ".py".toList) || !(pyStartsWith file_path root) then
    none
  else
    let relative_path := relpath file_path root
    if pyStartsWith relative_path "..".toList then
      none
    else
      some ((pySplit '/' root).getLastD [] ++ '.' ::
        pyJoin ['.'] (pySplit '/'
          (relative_path.take (relative_path.length - 3))))

/-- `resolve_relative_import(caller_parts, level, module)` (source lines
18-24).  `module = none` and `module = some ""` are both falsy in the
Python `if module:` guard; `caller_parts[:-level]` is `pySliceUpToNeg`. -/
def resolve_relative_import (caller_parts : List PyStr) (level : Nat)
    (module : Option PyStr) : PyStr :=
  if level > caller_parts.length then
    "<invalid>".toList
  else
    let base := pySliceUpToNeg caller_parts level
    let base' :=
      match module with
      | some m => if m.isEmpty then base else base ++ pySplit '.' m
      | none => base
    pyJoin ['.'] base'

/-- The import statements `analyze_imports` inspects, with parsing
abstracted away: `ast.Import` carries the dotted names, `ast.ImportFrom`
carries the relative level, the optional module, and the imported names. -/
inductive PyStmt where
  | imp (names : List PyStr)
  | impFrom (level : Nat) (module : Option PyStr) (names : List PyStr)

/-- The per-statement edge extraction of `analyze_imports` (source lines
38-58), for a file whose module name resolved to `caller_module`.
`fileExists` abstracts `os.path.isfile`. -/
def analyze_imports (fileExists : PyStr → Bool) (root caller_module : PyStr)
    (tree : List PyStmt) : List ImpEdge :=
  let caller_parts := pySplit '.' caller_module
  tree.flatMap fun node =>
    match node with
    | .imp names => names.map fun name => (caller_module, name)
    | .impFrom level module names =>
      if level > 0 then
        [(caller_module, resolve_relative_import caller_parts level module)]
      else
        match module with
        | some m =>
          if m.isEmpty then [] else
            names.map fun name =>
              let full_module_path :=
                osJoin root (pySplit '.' m ++ [name ++ ".py".toList])
              let full_package_path :=
                osJoin root (pySplit '.' m ++ [name, "__init__.py".toList])
              if fileExists full_module_path || fileExists full_package_path then
                (caller_module, m ++ '.' :: name)
              else
                (caller_module, m)
        | none => []

/-- `build_reverse_dep_graph(imports)[t]` (source lines 82-86) followed by
`.get(t, [])`: the set of callers recorded for target `t`, modelled as a
deduplicated list in edge order (the Python `set` fixes no order; every
theorem below that depends on order is proved order-independent). -/
def revAdj (imports : List ImpEdge) (t : PyStr) : List PyStr :=
  ((imports.filter (fun e => decide (e.2 = t))).map Prod.fst).dedup

/-- The callers adjacent to `current` in the reverse graph that are not yet
visited: the nodes the BFS loop body (source lines 94-98) adds. -/
def newNodes (imports : List ImpEdge) (visited : List PyStr)
    (current : PyStr) : List PyStr :=
  (revAdj imports current).filter (fun d => !decide (d ∈ visited))

theorem mem_newNodes {imports : List ImpEdge} {visited : List PyStr}
    {current d : PyStr} (h : d ∈ newNodes imports visited current) :
    d ∈ (imports.map Prod.fst).dedup ∧ d ∉ visited := by
  simp only [newNodes, revAdj, List.mem_filter, List.mem_dedup, List.mem_map,
    Bool.not_eq_true', decide_eq_false_iff_not] at h ⊢
  obtain ⟨⟨e, he, hfst⟩, hnv⟩ := h
  exact ⟨⟨e, he.1, hfst⟩, hnv⟩

theorem unvisitedCount_lt {imports : List ImpEdge} {visited : List PyStr}
    {current : PyStr} (h : newNodes imports visited current ≠ []) :
    ((imports.map Prod.fst).dedup.filter
      (fun x => !decide (x ∈ visited ++ newNodes imports visited current))).length <
    ((imports.map Prod.fst).dedup.filter
      (fun x => !decide (x ∈ visited))).length := by
  obtain ⟨d, hd⟩ := List.exists_mem_of_ne_nil _ h
  obtain ⟨hdu, hdv⟩ := mem_newNodes hd
  have hsub : ((imports.map Prod.fst).dedup.filter
      (fun x => !decide (x ∈ visited ++ newNodes imports visited current))).Sublist
      ((imports.map Prod.fst).dedup.filter (fun x => !decide (x ∈ visited))) := by
    apply List.monotone_filter_right
    intro a ha
    simp only [Bool.not_eq_true', decide_eq_false_iff_not, List.mem_append] at ha ⊢
    tauto
  rcases hsub.length_le.lt_or_eq with hlt | heq
  · exact hlt
  · exfalso
    have hEq := hsub.eq_of_length heq
    have hdMem : d ∈ (imports.map Prod.fst).dedup.filter
        (fun x => !decide (x ∈ visited)) := by
      simp only [List.mem_filter, Bool.not_eq_true', decide_eq_false_iff_not]
      exact ⟨hdu, hdv⟩
    rw [← hEq] at hdMem
    simp only [List.mem_filter, Bool.not_eq_true', decide_eq_false_iff_not,
      List.mem_append] at hdMem
    exact hdMem.2 (Or.inr hd)

/-- The BFS loop of `trace_dependency_paths` (source lines 92-98): pop the
front of the queue, visit the not-yet-visited callers of the popped node,
record their paths, and push them at the back.  `paths` is the dict of
recorded paths as an association list. -/
def traceAux (imports : List ImpEdge) (queue : List (PyStr × List PyStr))
    (visited : List PyStr) (paths : List (PyStr × List PyStr)) :
    List (PyStr × List PyStr) :=
  match queue with
  | [] => paths
  | (current, path) :: rest =>
    let news := newNodes imports visited current
    let entries := news.map (fun d => (d, path ++ [d]))
    traceAux imports (rest ++ entries) (visited ++ news) (paths ++ entries)
termination_by
  (((imports.map Prod.fst).dedup.filter (fun x => !decide (x ∈ visited))).length,
    queue.length)
decreasing_by
  by_cases hn : newNodes imports visited current = []
  · simp only [hn, List.map_nil, List.append_nil]
    exact Prod.Lex.right _ (by simp)
  · exact Prod.Lex.left _ _ (unvisitedCount_lt hn)

/-- `trace_dependency_paths(reverse_deps, start_modules)` (source lines
88-99), with `reverse_deps = build_reverse_dep_graph(imports)` as built at
both call sites (lines 163-169 and 186-192) and the seed set given as a
list; `set(start_modules)` makes the seeds duplicate-free, hence the
`dedup`. -/
def trace_dependency_paths (imports : List ImpEdge)
    (start_modules : List PyStr) : List (PyStr × List PyStr) :=
  let seeds := start_modules.dedup
  traceAux imports (seeds.map fun m => (m, [m])) seeds []

/-- Mode `nodeps` (source lines 132-134): the callers having at least one
edge into the known module set. -/
def hasDeps (all_imports : List ImpEdge) (all_modules : List PyStr) : List PyStr :=
  (all_imports.filter (fun e => decide (e.2 ∈ all_modules))).map Prod.fst

/-- Mode `nodeps` result `all_modules - has_deps` (source line 134),
membership-equivalent to the Python set difference. -/
def noDeps (all_modules : List PyStr) (all_imports : List ImpEdge) : List PyStr :=
  all_modules.filter (fun m => !decide (m ∈ hasDeps all_imports all_modules))

/-- The `direct_dependents` set of modes `pkg_dep`/`not_pkg_dep` (source
lines 164-167 and 187-190): callers of an edge whose target is the package
or has the package as a dotted prefix. -/
def directDependents (all_imports : List ImpEdge) (pkg : PyStr) : List PyStr :=
  ((all_imports.filter (fun e =>
    decide (e.2 = pkg) || pyStartsWith e.2 (pkg ++ ['.']))).map Prod.fst).dedup

/-- Mode `not_pkg_dep` result (source lines 192-195):
`all_modules - (set(paths) | direct_dependents)`. -/
def notPkgDep (all_modules : List PyStr) (all_imports : List ImpEdge)
    (pkg : PyStr) : List PyStr :=
  let direct := directDependents all_imports pkg
  let paths := trace_dependency_paths all_imports direct
  let all_dependent := paths.map Prod.fst ++ direct
  all_modules.filter (fun m => !decide (m ∈ all_dependent))

/-- Python dict membership and lookup on the module→path table, modelled
as an association list. -/
def lookupA (table : List (PyStr × PyStr)) (k : PyStr) : Option PyStr :=
  (table.find? (fun e => decide (e.1 = k))).map Prod.snd

/-- The components of an absolute normalized path, separator-split with
empty components dropped. -/
def segsOf (p : PyStr) : List PyStr :=
  (pySplit '/' p).filter (fun x => !x.isEmpty)

/-- `Path(p).relative_to(Path(dir))` succeeds exactly when the directory's
components are a prefix of the path's components (both already absolute
and resolved), which is how the `try/except ValueError` on source lines
247-250 decides containment. -/
def relativeToOk (p dir : PyStr) : Bool :=
  decide ((segsOf p).take (segsOf dir).length = segsOf dir)

/-- Mode `encapsulated_dir`, inner file loop (source lines 233-241): the
modules whose file lies directly in the visited directory. -/
def localModules (module_to_path : List (PyStr × PyStr))
    (root_dir dirpath : PyStr) (filenames : List PyStr) : List PyStr :=
  filenames.filterMap fun filename =>
    if !(pyEndsWith filename ".py".toList) then none
    else
      match get_module_name root_dir (osJoin dirpath [filename]) with
      | none => none
      | some module =>
        if (lookupA module_to_path module).isSome then some module else none

/-- Mode `encapsulated_dir`, the `(caller, imported)` pairs collected into
`local_outside_deps` (source lines 242-250). -/
def localOutsideDeps (module_to_path : List (PyStr × PyStr))
    (all_imports : List ImpEdge) (dirpath : PyStr) (mods : List PyStr) :
    List ImpEdge :=
  mods.flatMap fun module =>
    all_imports.filterMap fun e =>
      if decide (e.1 = module) then
        match lookupA module_to_path e.2 with
        | some imported_path =>
          if relativeToOk imported_path dirpath then none else some e
        | none => none
      else none

/-- Whether the visited directory is appended to `encapsulated` (source
line 252): at least one local module and no local outside dependency. -/
def encapsulatedDirReported (module_to_path : List (PyStr × PyStr))
    (all_imports : List ImpEdge) (root_dir dirpath : PyStr)
    (filenames : List PyStr) : Bool :=
  let mods := localModules module_to_path root_dir dirpath filenames
  !mods.isEmpty &&
    (localOutsideDeps module_to_path all_imports dirpath mods).isEmpty

/-- `v` is reachable from the seed set in exactly `n` hops of the reverse
graph: there are modules `s = u₀, u₁, …, uₙ = v` with `s` a seed and each
`(uᵢ₊₁, uᵢ)` an import edge, i.e. `uᵢ₊₁` a caller of `uᵢ`. -/
inductive Reaches (imports : List ImpEdge) (seeds : List PyStr) :
    Nat → PyStr → Prop where
  | seed {v : PyStr} : v ∈ seeds → Reaches imports seeds 0 v
  | step {n : Nat} {u v : PyStr} : Reaches imports seeds n u →
      (v, u) ∈ imports → Reaches imports seeds (n + 1) v

/-- `n` is the minimum hop count from any seed to `v` over the reverse
graph. -/
def IsMinDist (imports : List ImpEdge) (seeds : List PyStr)
    (v : PyStr) (n : Nat) : Prop :=
  Reaches imports seeds n v ∧ ∀ m, Reaches imports seeds m v → n ≤ m

/-- What `trace_dependency_paths` records for a pair `(v, p)`: `p` is a
genuine reverse-graph path from some seed to `v` and its hop count
`p.length - 1` is minimal over all seeds. -/
structure EntryOK (imports : List ImpEdge) (seeds : List PyStr)
    (v : PyStr) (p : List PyStr) : Prop where
  ne : p ≠ []
  head_seed : ∃ s ∈ seeds, p.head? = some s
  last_eq : p.getLast? = some v
  chain : List.Chain' (fun a b => (b, a) ∈ imports) p
  mindist : IsMinDist imports seeds v (p.length - 1)

/-- The loop invariant of the BFS in `trace_dependency_paths`. -/
structure BfsInv (imports : List ImpEdge) (seeds : List PyStr)
    (queue : List (PyStr × List PyStr)) (visited : List PyStr)
    (paths : List (PyStr × List PyStr)) : Prop where
  hq : ∀ e ∈ queue, EntryOK imports seeds e.1 e.2
  hp : ∀ e ∈ paths, EntryOK imports seeds e.1 e.2
  shape : ∃ L qa qb, queue = qa ++ qb ∧ (∀ e ∈ qa, e.2.length = L) ∧
    ∀ e ∈ qb, e.2.length = L + 1
  hvchar : ∀ v, v ∈ visited ↔ (v ∈ seeds ∨ v ∈ paths.map Prod.fst)
  hvreach : ∀ v ∈ visited, ∃ n, Reaches imports seeds n v
  hfrontier : ∀ v m, Reaches imports seeds m v →
    (∀ e ∈ queue, m + 1 < e.2.length) → v ∈ visited
  hexplored : ∀ v ∈ visited, v ∈ queue.map Prod.fst ∨
    ∀ w, (w, v) ∈ imports → w ∈ visited
  hnoseed : ∀ e ∈ paths, e.1 ∉ seeds

theorem mem_revAdj {imports : List ImpEdge} {t d : PyStr} :
    d ∈ revAdj imports t ↔ (d, t) ∈ imports := by
  simp only [revAdj, List.mem_dedup, List.mem_map, List.mem_filter,
    decide_eq_true_eq]
  constructor
  · rintro ⟨⟨a, b⟩, ⟨he, ht⟩, rfl⟩
    dsimp only at ht
    subst ht
    exact he
  · intro h
    exact ⟨(d, t), ⟨h, rfl⟩, rfl⟩

theorem mem_newNodes_iff {imports : List ImpEdge} {visited : List PyStr}
    {current d : PyStr} :
    d ∈ newNodes imports visited current ↔
      (d, current) ∈ imports ∧ d ∉ visited := by
  simp [newNodes, mem_revAdj]

/-- Reachability depends on the edge list and the seed list only through
membership. -/
theorem Reaches.congr {imports imports' : List ImpEdge}
    {seeds seeds' : List PyStr} {n : Nat} {v : PyStr}
    (hi : ∀ e : ImpEdge, e ∈ imports ↔ e ∈ imports')
    (hs : ∀ s : PyStr, s ∈ seeds ↔ s ∈ seeds')
    (h : Reaches imports seeds n v) : Reaches imports' seeds' n v := by
  induction h with
  | seed hv => exact .seed ((hs _).mp hv)
  | step _ he ih => exact .step ih ((hi _).mp he)

theorem isMinDist_unique {imports : List ImpEdge} {seeds : List PyStr}
    {v : PyStr} {n n' : Nat} (h : IsMinDist imports seeds v n)
    (h' : IsMinDist imports seeds v n') : n = n' :=
  Nat.le_antisymm (h.2 _ h'.1) (h'.2 _ h.1)

theorem isMinDist_congr {imports imports' : List ImpEdge}
    {seeds seeds' : List PyStr} {v : PyStr} {n : Nat}
    (hi : ∀ e : ImpEdge, e ∈ imports ↔ e ∈ imports')
    (hs : ∀ s : PyStr, s ∈ seeds ↔ s ∈ seeds')
    (h : IsMinDist imports seeds v n) : IsMinDist imports' seeds' v n :=
  ⟨h.1.congr hi hs, fun m hm =>
    h.2 m (hm.congr (fun e => (hi e).symm) (fun s => (hs s).symm))⟩

theorem entryOK_congr_seeds {imports : List ImpEdge}
    {seeds seeds' : List PyStr} {v : PyStr} {p : List PyStr}
    (hs : ∀ s : PyStr, s ∈ seeds ↔ s ∈ seeds')
    (h : EntryOK imports seeds v p) : EntryOK imports seeds' v p := by
  obtain ⟨s, hsm, hh⟩ := h.head_seed
  exact ⟨h.ne, ⟨s, (hs s).mp hsm, hh⟩, h.last_eq, h.chain,
    isMinDist_congr (fun _ => Iff.rfl) hs h.mindist⟩

theorem reaches_nil_seeds {imports : List ImpEdge} {n : Nat} {v : PyStr}
    (h : Reaches imports [] n v) : False := by
  induction h with
  | seed hv => simp at hv
  | step _ _ ih => exact ih

/-- In a queue of the invariant's shape, the front path is shortest. -/
theorem shape_front_le {imports : List ImpEdge} {seeds : List PyStr}
    {current : PyStr} {path : List PyStr}
    {rest : List (PyStr × List PyStr)} {visited : List PyStr}
    {paths : List (PyStr × List PyStr)}
    (inv : BfsInv imports seeds ((current, path) :: rest) visited paths) :
    ∀ e ∈ (current, path) :: rest, path.length ≤ e.2.length := by
  obtain ⟨L, qa, qb, hsplit, ha, hb⟩ := inv.shape
  intro e he
  cases qa with
  | nil =>
    simp only [List.nil_append] at hsplit
    have hfront : path.length = L + 1 := by
      have := hb (current, path) (hsplit ▸ List.mem_cons_self _ _)
      simpa using this
    have := hb e (hsplit ▸ he)
    omega
  | cons f qa' =>
    have hfeq : f = (current, path) := by
      have : f :: (qa' ++ qb) = (current, path) :: rest := by
        simpa using hsplit.symm
      exact (List.cons.injEq _ _ _ _ ▸ this).1
    have hfront : path.length = L := by
      have := ha f (List.mem_cons_self _ _)
      rw [hfeq] at this
      simpa using this
    rw [hsplit] at he
    simp only [List.cons_append, List.mem_cons, List.mem_append] at he
    rcases he with h | h | h
    · rw [h, hfeq]
    · have := ha _ (List.mem_cons_of_mem _ h)
      omega
    · have := hb _ h
      omega

/-- In a queue of the invariant's shape, every path is at most one longer
than the front path. -/
theorem shape_le_front_succ {imports : List ImpEdge} {seeds : List PyStr}
    {current : PyStr} {path : List PyStr}
    {rest : List (PyStr × List PyStr)} {visited : List PyStr}
    {paths : List (PyStr × List PyStr)}
    (inv : BfsInv imports seeds ((current, path) :: rest) visited paths) :
    ∀ e ∈ (current, path) :: rest, e.2.length ≤ path.length + 1 := by
  obtain ⟨L, qa, qb, hsplit, ha, hb⟩ := inv.shape
  intro e he
  cases qa with
  | nil =>
    simp only [List.nil_append] at hsplit
    have hfront : path.length = L + 1 := by
      have := hb (current, path) (hsplit ▸ List.mem_cons_self _ _)
      simpa using this
    have := hb e (hsplit ▸ he)
    omega
  | cons f qa' =>
    have hfeq : f = (current, path) := by
      have : f :: (qa' ++ qb) = (current, path) :: rest := by
        simpa using hsplit.symm
      exact (List.cons.injEq _ _ _ _ ▸ this).1
    have hfront : path.length = L := by
      have := ha f (List.mem_cons_self _ _)
      rw [hfeq] at this
      simpa using this
    rw [hsplit] at he
    simp only [List.cons_append, List.mem_cons, List.mem_append] at he
    rcases he with h | h | h
    · rw [h, hfeq]
      simp
    · have := ha _ (List.mem_cons_of_mem _ h)
      omega
    · have := hb _ h
      omega

/-- Key BFS lemma: when `(current, path)` is at the front of the queue,
every node within `path.length - 1` hops of the seeds is already visited. -/
theorem reach_le_front_visited {imports : List ImpEdge} {seeds : List PyStr}
    {current : PyStr} {path : List PyStr}
    {rest : List (PyStr × List PyStr)} {visited : List PyStr}
    {paths : List (PyStr × List PyStr)}
    (inv : BfsInv imports seeds ((current, path) :: rest) visited paths) :
    ∀ m, m + 1 ≤ path.length → ∀ v, Reaches imports seeds m v →
      v ∈ visited := by
  intro m
  induction m using Nat.strong_induction_on with
  | _ m ih =>
    intro hm v hv
    cases hv with
    | seed hs => exact (inv.hvchar v).mpr (Or.inl hs)
    | @step n u v hu he =>
      have hun : u ∈ visited := ih n (by omega) (by omega) u hu
      rcases inv.hexplored u hun with hq | hexp
      · obtain ⟨e, heq, hefst⟩ := List.mem_map.mp hq
        have hok := inv.hq e heq
        have hmin := hok.mindist
        rw [hefst] at hmin
        have h1 : e.2.length - 1 ≤ n := hmin.2 n hu
        have h2 : path.length ≤ e.2.length := shape_front_le inv e heq
        have h3 : e.2 ≠ [] := hok.ne
        have h4 : 1 ≤ e.2.length := List.length_pos.mpr h3
        omega
      · exact hexp v he

/-- One iteration of the BFS loop preserves the invariant. -/
theorem bfsInv_step {imports : List ImpEdge} {seeds : List PyStr}
    {current : PyStr} {path : List PyStr}
    {rest : List (PyStr × List PyStr)} {visited : List PyStr}
    {paths : List (PyStr × List PyStr)}
    (inv : BfsInv imports seeds ((current, path) :: rest) visited paths) :
    BfsInv imports seeds
      (rest ++ (newNodes imports visited current).map (fun d => (d, path ++ [d])))
      (visited ++ newNodes imports visited current)
      (paths ++ (newNodes imports visited current).map (fun d => (d, path ++ [d]))) := by
  set news := newNodes imports visited current with hnews
  have hfok := inv.hq (current, path) (List.mem_cons_self _ _)
  have hne : path ≠ [] := hfok.ne
  have hlen1 : 1 ≤ path.length := List.length_pos.mpr hne
  have hlast : path.getLast? = some current := hfok.last_eq
  have hmin : IsMinDist imports seeds current (path.length - 1) := hfok.mindist
  have hreach : Reaches imports seeds (path.length - 1) current := hmin.1
  have hnewsProp : ∀ d ∈ news, (d, current) ∈ imports ∧ d ∉ visited := by
    intro d hd
    rw [hnews] at hd
    exact mem_newNodes_iff.mp hd
  have hnewReach : ∀ d ∈ news, Reaches imports seeds (path.length - 1 + 1) d :=
    fun d hd => .step hreach (hnewsProp d hd).1
  have hnewMin : ∀ d ∈ news, IsMinDist imports seeds d (path.length - 1 + 1) := by
    intro d hd
    refine ⟨hnewReach d hd, ?_⟩
    intro m hm
    by_contra hlt
    push_neg at hlt
    exact (hnewsProp d hd).2 (reach_le_front_visited inv m (by omega) d hm)
  have hnewOK : ∀ d ∈ news, EntryOK imports seeds d (path ++ [d]) := by
    intro d hd
    obtain ⟨s, hs, hh⟩ := hfok.head_seed
    refine ⟨by simp, ⟨s, hs, ?_⟩, by simp, ?_, ?_⟩
    · cases path with
      | nil => exact absurd rfl hne
      | cons a t => simpa using hh
    · rw [List.chain'_append]
      refine ⟨hfok.chain, List.chain'_singleton _, ?_⟩
      intro x hx y hy
      simp only [List.head?_cons, Option.mem_def, Option.some.injEq] at hy
      rw [hlast] at hx
      simp only [Option.mem_def, Option.some.injEq] at hx
      subst hx
      subst hy
      exact (hnewsProp d hd).1
    · have hlen : (path ++ [d]).length - 1 = path.length - 1 + 1 := by
        simp only [List.length_append, List.length_cons, List.length_nil]
        omega
      rw [hlen]
      exact hnewMin d hd
  have hkeysNew : (news.map (fun d => (d, path ++ [d]))).map Prod.fst = news := by
    simp [Function.comp_def]
  refine ⟨?_, ?_, ?_, ?_, ?_, ?_, ?_, ?_⟩
  · intro e he
    rcases List.mem_append.mp he with h | h
    · exact inv.hq e (List.mem_cons_of_mem _ h)
    · obtain ⟨d, hd, rfl⟩ := List.mem_map.mp h
      exact hnewOK d hd
  · intro e he
    rcases List.mem_append.mp he with h | h
    · exact inv.hp e h
    · obtain ⟨d, hd, rfl⟩ := List.mem_map.mp h
      exact hnewOK d hd
  · obtain ⟨L, qa, qb, hsplit, ha, hb⟩ := inv.shape
    cases qa with
    | nil =>
      simp only [List.nil_append] at hsplit
      have hfront : path.length = L + 1 := by
        have := hb (current, path) (hsplit ▸ List.mem_cons_self _ _)
        simpa using this
      refine ⟨L + 1, rest, news.map (fun d => (d, path ++ [d])), rfl, ?_, ?_⟩
      · intro e he
        exact hb e (hsplit ▸ List.mem_cons_of_mem _ he)
      · intro e he
        obtain ⟨d, hd, rfl⟩ := List.mem_map.mp he
        simp [hfront]
    | cons f qa' =>
      simp only [List.cons_append] at hsplit
      obtain ⟨hf, hrest⟩ := List.cons_eq_cons.mp hsplit
      have hfront : path.length = L := by
        have := ha f (List.mem_cons_self _ _)
        rw [← hf] at this
        simpa using this
      refine ⟨L, qa', qb ++ news.map (fun d => (d, path ++ [d])), ?_, ?_, ?_⟩
      · rw [hrest, List.append_assoc]
      · intro e he
        exact ha e (List.mem_cons_of_mem _ he)
      · intro e he
        rcases List.mem_append.mp he with h | h
        · exact hb e h
        · obtain ⟨d, hd, rfl⟩ := List.mem_map.mp h
          simp [hfront]
  · intro v
    rw [List.mem_append, inv.hvchar v, List.map_append, hkeysNew,
      List.mem_append]
    tauto
  · intro v hv
    rcases List.mem_append.mp hv with h | h
    · exact inv.hvreach v h
    · exact ⟨_, hnewReach v h⟩
  · intro v m hr hcond
    by_cases hm : m + 1 ≤ path.length
    · exact List.mem_append.mpr (Or.inl (reach_le_front_visited inv m hm v hr))
    · push_neg at hm
      by_cases hn : news = []
      · cases rest with
        | cons e rest' =>
          have hce := hcond e (List.mem_append.mpr (Or.inl (List.mem_cons_self _ _)))
          have hle := shape_le_front_succ inv e
            (List.mem_cons_of_mem _ (List.mem_cons_self _ _))
          exfalso
          omega
        | nil =>
          refine List.mem_append.mpr (Or.inl ?_)
          have hall : ∀ k, ∀ w, Reaches imports seeds k w → w ∈ visited := by
            intro k
            induction k using Nat.strong_induction_on with
            | _ k ih =>
              intro w hw
              cases hw with
              | seed hs => exact (inv.hvchar w).mpr (Or.inl hs)
              | @step n u w hu he =>
                have hun : u ∈ visited := ih n (by omega) u hu
                rcases inv.hexplored u hun with hqm | hexp
                · simp only [List.map_cons, List.map_nil, List.mem_cons,
                    List.not_mem_nil, or_false] at hqm
                  subst hqm
                  by_contra hwv
                  have hwn : w ∈ news := by
                    rw [hnews]
                    exact mem_newNodes_iff.mpr ⟨he, hwv⟩
                  rw [hn] at hwn
                  simp at hwn
                · exact hexp w he
          exact hall m v hr
      · obtain ⟨d, hd⟩ := List.exists_mem_of_ne_nil _ hn
        have hmem : (d, path ++ [d]) ∈
            rest ++ news.map (fun d => (d, path ++ [d])) :=
          List.mem_append.mpr (Or.inr (List.mem_map.mpr ⟨d, hd, rfl⟩))
        have hc := hcond _ hmem
        simp only [List.length_append, List.length_cons, List.length_nil] at hc
        exfalso
        omega
  · intro v hv
    rcases List.mem_append.mp hv with hvis | hnew
    · rcases inv.hexplored v hvis with hqm | hexp
      · simp only [List.map_cons, List.mem_cons] at hqm
        rcases hqm with hcur | hrest
        · subst hcur
          refine Or.inr ?_
          intro w hw
          by_cases hwv : w ∈ visited
          · exact List.mem_append.mpr (Or.inl hwv)
          · refine List.mem_append.mpr (Or.inr ?_)
            rw [hnews]
            exact mem_newNodes_iff.mpr ⟨hw, hwv⟩
        · refine Or.inl ?_
          rw [List.map_append]
          exact List.mem_append.mpr (Or.inl hrest)
      · exact Or.inr fun w hw => List.mem_append.mpr (Or.inl (hexp w hw))
    · refine Or.inl ?_
      rw [List.map_append, hkeysNew]
      exact List.mem_append.mpr (Or.inr hnew)
  · intro e he
    rcases List.mem_append.mp he with h | h
    · exact inv.hnoseed e h
    · obtain ⟨d, hd, rfl⟩ := List.mem_map.mp h
      intro hds
      exact (hnewsProp d hd).2 ((inv.hvchar d).mpr (Or.inl hds))

/-- The initial BFS state (source lines 90-91) satisfies the invariant. -/
theorem bfsInv_init (imports : List ImpEdge) (seeds : List PyStr) :
    BfsInv imports seeds (seeds.map fun m => (m, [m])) seeds [] := by
  refine ⟨?_, ?_, ?_, ?_, ?_, ?_, ?_, ?_⟩
  · intro e he
    obtain ⟨s, hs, rfl⟩ := List.mem_map.mp he
    exact ⟨by simp, ⟨s, hs, by simp⟩, by simp, List.chain'_singleton _,
      ⟨.seed hs, fun m _ => Nat.zero_le m⟩⟩
  · intro e he
    simp at he
  · refine ⟨1, seeds.map fun m => (m, [m]), [], by simp, ?_, by simp⟩
    intro e he
    obtain ⟨s, hs, rfl⟩ := List.mem_map.mp he
    rfl
  · intro v
    simp
  · intro v hv
    exact ⟨0, .seed hv⟩
  · intro v m hr hcond
    cases hseeds : seeds with
    | nil =>
      rw [hseeds] at hr
      exact absurd hr reaches_nil_seeds
    | cons s t =>
      have := hcond (s, [s]) (by rw [hseeds]; simp)
      simp at this
  · intro v hv
    refine Or.inl ?_
    simp only [List.map_map]
    simpa [Function.comp_def] using hv
  · intro e he
    simp at he

/-- Running the BFS loop from any state satisfying the invariant yields a
paths table whose entries are shortest seed paths and whose keys are
exactly the reachable non-seed modules. -/
theorem traceAux_spec (imports : List ImpEdge) (seeds : List PyStr) :
    ∀ (queue : List (PyStr × List PyStr)) (visited : List PyStr)
      (paths : List (PyStr × List PyStr)),
      BfsInv imports seeds queue visited paths →
      (∀ e ∈ traceAux imports queue visited paths,
        EntryOK imports seeds e.1 e.2) ∧
      ∀ v, v ∈ (traceAux imports queue visited paths).map Prod.fst ↔
        ((∃ n, Reaches imports seeds n v) ∧ v ∉ seeds) := by
  intro queue visited paths
  induction queue, visited, paths using traceAux.induct imports with
  | case1 visited paths =>
    intro inv
    constructor
    · intro e he
      rw [traceAux] at he
      exact inv.hp e he
    · intro v
      rw [traceAux]
      constructor
      · intro hv
        obtain ⟨e, he, rfl⟩ := List.mem_map.mp hv
        have h1 : e.1 ∈ visited :=
          (inv.hvchar e.1).mpr (Or.inr (List.mem_map.mpr ⟨e, he, rfl⟩))
        exact ⟨inv.hvreach _ h1, inv.hnoseed e he⟩
      · rintro ⟨⟨n, hn⟩, hns⟩
        have hvis : v ∈ visited := inv.hfrontier v n hn (by intro e he; simp at he)
        rcases (inv.hvchar v).mp hvis with h | h
        · exact absurd h hns
        · exact h
  | case2 visited paths current path rest news entries ih =>
    intro inv
    rw [traceAux]
    exact ih (bfsInv_step inv)

/-- Full behavioural specification of `trace_dependency_paths`: every
recorded pair `(v, p)` is a shortest reverse-graph path from some seed to
`v`, and the recorded keys are exactly the reachable non-seed modules. -/
theorem trace_dependency_paths_spec (imports : List ImpEdge)
    (seeds : List PyStr) :
    (∀ e ∈ trace_dependency_paths imports seeds,
      EntryOK imports seeds e.1 e.2) ∧
    ∀ v, v ∈ (trace_dependency_paths imports seeds).map Prod.fst ↔
      ((∃ n, Reaches imports seeds n v) ∧ v ∉ seeds) := by
  have hdedup : ∀ s : PyStr, s ∈ seeds.dedup ↔ s ∈ seeds :=
    fun s => List.mem_dedup
  have h := traceAux_spec imports seeds.dedup
    (seeds.dedup.map fun m => (m, [m])) seeds.dedup []
    (bfsInv_init imports seeds.dedup)
  rw [trace_dependency_paths]
  constructor
  · intro e he
    exact entryOK_congr_seeds hdedup (h.1 e he)
  · intro v
    rw [h.2 v]
    constructor
    · rintro ⟨⟨n, hn⟩, hns⟩
      exact ⟨⟨n, hn.congr (fun _ => Iff.rfl) hdedup⟩,
        fun hc => hns ((hdedup v).mpr hc)⟩
    · rintro ⟨⟨n, hn⟩, hns⟩
      exact ⟨⟨n, hn.congr (fun _ => Iff.rfl) (fun s => (hdedup s).symm)⟩,
        fun hc => hns ((hdedup v).mp hc)⟩

/-- Every key of the BFS paths table is the caller of some edge. -/
theorem trace_keys_mem_callers {imports : List ImpEdge} {seeds : List PyStr}
    {v : PyStr}
    (h : v ∈ (trace_dependency_paths imports seeds).map Prod.fst) :
    v ∈ imports.map Prod.fst := by
  obtain ⟨⟨n, hn⟩, hns⟩ := ((trace_dependency_paths_spec imports seeds).2 v).mp h
  cases hn with
  | seed hsv => exact absurd hsv hns
  | step _ he => exact List.mem_map.mpr ⟨_, he, rfl⟩

/-- **C3.** In the multi-source reverse-graph BFS of
`trace_dependency_paths`, every node appearing in the returned paths map is
recorded with a path that starts at some seed, follows reverse-graph edges
(each later element is a caller of the one before it), ends at that node,
and whose hop count (`p.length - 1`) is the minimum hop count from any
seed to that node over the reverse graph. -/
theorem C3_trace_paths_shortest (imports : List ImpEdge) (seeds : List PyStr)
    (v : PyStr) (p : List PyStr)
    (hmem : (v, p) ∈ trace_dependency_paths imports seeds) :
    (∃ s ∈ seeds, p.head? = some s) ∧
    List.Chain' (fun a b => (b, a) ∈ imports) p ∧
    p.getLast? = some v ∧
    IsMinDist imports seeds v (p.length - 1) := by
  have h := (trace_dependency_paths_spec imports seeds).1 (v, p) hmem
  exact ⟨h.head_seed, h.chain, h.last_eq, h.mindist⟩

/-- **C9.** Re-running the multi-source BFS on a permuted edge list (hence
differently-ordered adjacency sets) and a permuted seed list reaches the
same set of nodes, and every reached node's recorded path has the same
length; only the path choice may differ. -/
theorem C9_trace_order_independent (imports imports' : List ImpEdge)
    (seeds seeds' : List PyStr) (hi : imports.Perm imports')
    (hs : seeds.Perm seeds') :
    (∀ v, v ∈ (trace_dependency_paths imports seeds).map Prod.fst ↔
      v ∈ (trace_dependency_paths imports' seeds').map Prod.fst) ∧
    ∀ v p p', (v, p) ∈ trace_dependency_paths imports seeds →
      (v, p') ∈ trace_dependency_paths imports' seeds' →
      p.length = p'.length := by
  have himp : ∀ e : ImpEdge, e ∈ imports ↔ e ∈ imports' := fun e => hi.mem_iff
  have hsm : ∀ s : PyStr, s ∈ seeds ↔ s ∈ seeds' := fun s => hs.mem_iff
  have h1 := trace_dependency_paths_spec imports seeds
  have h2 := trace_dependency_paths_spec imports' seeds'
  constructor
  · intro v
    rw [h1.2 v, h2.2 v]
    constructor
    · rintro ⟨⟨n, hn⟩, hns⟩
      exact ⟨⟨n, hn.congr himp hsm⟩, fun hc => hns ((hsm v).mpr hc)⟩
    · rintro ⟨⟨n, hn⟩, hns⟩
      exact ⟨⟨n, hn.congr (fun e => (himp e).symm) (fun s => (hsm s).symm)⟩,
        fun hc => hns ((hsm v).mp hc)⟩
  · intro v p p' hp hp'
    have e1 := (h1.1 _ hp).mindist
    have e2' : IsMinDist imports seeds v (p'.length - 1) :=
      isMinDist_congr (fun e => (himp e).symm) (fun s => (hsm s).symm)
        (h2.1 _ hp').mindist
    have heq : p.length - 1 = p'.length - 1 := isMinDist_unique e1 e2'
    have l1 : 1 ≤ p.length := List.length_pos.mpr (h1.1 _ hp).ne
    have l2 : 1 ≤ p'.length := List.length_pos.mpr (h2.1 _ hp').ne
    omega

/-- **C4.** Mode `nodeps`: a module `M` is in the result exactly when `M`
is a known module and no import edge `(M, target)` has its target in the
known module set — the result is `all_modules` minus the callers with an
internal edge. -/
theorem C4_noDeps_iff (all_modules : List PyStr) (all_imports : List ImpEdge)
    (M : PyStr) :
    M ∈ noDeps all_modules all_imports ↔
      (M ∈ all_modules ∧
        ¬ ∃ e ∈ all_imports, e.1 = M ∧ e.2 ∈ all_modules) := by
  simp only [noDeps, hasDeps, List.mem_filter, Bool.not_eq_true',
    decide_eq_false_iff_not, List.mem_map, decide_eq_true_eq]
  constructor
  · rintro ⟨hm, hno⟩
    refine ⟨hm, ?_⟩
    rintro ⟨e, he, hfst, hsnd⟩
    exact hno ⟨e, ⟨he, hsnd⟩, hfst⟩
  · rintro ⟨hm, hno⟩
    refine ⟨hm, ?_⟩
    rintro ⟨e, ⟨he, hsnd⟩, hfst⟩
    exact hno ⟨e, he, hfst, hsnd⟩

/-- **C5.** Mode `pkg_dep`/`not_pkg_dep`: the direct dependents, the
BFS-reached set, and the `not_pkg_dep` result together cover exactly the
whole module set, provided every edge's caller is a known module. -/
theorem C5_pkg_partition (all_modules : List PyStr)
    (all_imports : List ImpEdge) (pkg : PyStr)
    (hcallers : ∀ e ∈ all_imports, e.1 ∈ all_modules) :
    ∀ m, (m ∈ directDependents all_imports pkg ∨
      m ∈ (trace_dependency_paths all_imports
        (directDependents all_imports pkg)).map Prod.fst ∨
      m ∈ notPkgDep all_modules all_imports pkg) ↔ m ∈ all_modules := by
  intro m
  constructor
  · rintro (h | h | h)
    · simp only [directDependents, List.mem_dedup, List.mem_map] at h
      obtain ⟨e, he, rfl⟩ := h
      exact hcallers e (List.mem_filter.mp he).1
    · obtain ⟨e, he, rfl⟩ := List.mem_map.mp (trace_keys_mem_callers h)
      exact hcallers e he
    · exact (List.mem_filter.mp h).1
  · intro hm
    by_cases h1 : m ∈ directDependents all_imports pkg
    · exact Or.inl h1
    by_cases h2 : m ∈ (trace_dependency_paths all_imports
        (directDependents all_imports pkg)).map Prod.fst
    · exact Or.inr (Or.inl h2)
    refine Or.inr (Or.inr ?_)
    simp only [notPkgDep, List.mem_filter, Bool.not_eq_true',
      decide_eq_false_iff_not, List.mem_append]
    exact ⟨hm, fun hc => hc.elim h2 h1⟩

/-- A small concrete graph shared by the witnesses below: `b` imports `a`
and `c` imports `b`. -/
def exImports : List ImpEdge :=
  [("b".toList, "a".toList), ("c".toList, "b".toList)]

/-- The known module set of the concrete example. -/
def exModules : List PyStr := ["a".toList, "b".toList, "c".toList]

theorem C3_witness :
    (∃ s ∈ ["a".toList],
      (["a".toList, "b".toList, "c".toList] : List PyStr).head? = some s) ∧
    List.Chain' (fun a b => (b, a) ∈ exImports)
      ["a".toList, "b".toList, "c".toList] ∧
    (["a".toList, "b".toList, "c".toList] : List PyStr).getLast? =
      some "c".toList ∧
    IsMinDist exImports ["a".toList] "c".toList
      ((["a".toList, "b".toList, "c".toList] : List PyStr).length - 1) :=
  C3_trace_paths_shortest exImports ["a".toList] "c".toList
    ["a".toList, "b".toList, "c".toList]
    (by simp [trace_dependency_paths, traceAux, newNodes, revAdj, exImports])

theorem C9_witness :
    "c".toList ∈ (trace_dependency_paths exImports ["a".toList]).map Prod.fst ↔
      "c".toList ∈ (trace_dependency_paths
        [("c".toList, "b".toList), ("b".toList, "a".toList)]
        ["a".toList]).map Prod.fst :=
  (C9_trace_order_independent exImports
    [("c".toList, "b".toList), ("b".toList, "a".toList)]
    ["a".toList] ["a".toList] (by decide) (List.Perm.refl _)).1 "c".toList

theorem C5_witness :
    ("b".toList ∈ directDependents exImports "a".toList ∨
      "b".toList ∈ (trace_dependency_paths exImports
        (directDependents exImports "a".toList)).map Prod.fst ∨
      "b".toList ∈ notPkgDep exModules exImports "a".toList) ↔
      "b".toList ∈ exModules :=
  (C5_pkg_partition exModules exImports "a".toList (by decide)) "b".toList

/-- **C2 counterexample.** `resolve_relative_import` can return the
sentinel `<invalid>` at an input whose level (1) does not exceed the
number of caller segments (1): a module suffix equal to the sentinel
string reproduces it, so the claim's "exactly when" fails. -/
theorem C2_counterexample :
    resolve_relative_import ["a".toList] 1 (some "<invalid>".toList) =
      "<invalid>".toList ∧
    ¬ (1 > (["a".toList] : List PyStr).length) := by
  decide

/-- **C2 (amended).** For every caller-parts list, `level ≥ 1` and optional
module suffix: when `level` exceeds the number of caller segments the
result is the sentinel `<invalid>`; otherwise it is the dot-join of the
caller parts with the last `level` segments removed, followed by the
dot-segments of the module suffix when a nonempty one is present.  The
function is total, so no exception can be raised.  (Only the converse
"exactly when" direction of the original claim fails: the dot-join itself
equals the sentinel string when the inputs contain it, as in the
counterexample.) -/
theorem C2_resolve_relative_spec (caller_parts : List PyStr) (level : Nat)
    (module : Option PyStr) (hlevel : 1 ≤ level) :
    (caller_parts.length < level →
      resolve_relative_import caller_parts level module =
        "<invalid>".toList) ∧
    (level ≤ caller_parts.length →
      resolve_relative_import caller_parts level module =
        pyJoin ['.'] (caller_parts.take (caller_parts.length - level) ++
          match module with
          | some m => if m.isEmpty then [] else pySplit '.' m
          | none => [])) := by
  constructor
  · intro h
    rw [resolve_relative_import, if_pos (by omega)]
  · intro h
    rw [resolve_relative_import, if_neg (by omega)]
    have hslice : pySliceUpToNeg caller_parts level =
        caller_parts.take (caller_parts.length - level) := by
      rw [pySliceUpToNeg, if_neg (by omega)]
    cases module with
    | none => simp [hslice]
    | some m =>
      by_cases hm : m.isEmpty
      · simp [hslice, hm]
      · simp [hslice, hm]

theorem C2_witness :
    resolve_relative_import ["a".toList, "b".toList, "c".toList] 1
      (some "d".toList) = "a.b.d".toList :=
  ((C2_resolve_relative_spec ["a".toList, "b".toList, "c".toList] 1
    (some "d".toList) (by decide)).2 (by decide)).trans (by decide)

/-- **C1.** For an absolute (level-0) `from X import a, b, …` statement,
`analyze_imports` emits exactly one edge per imported name; a name's
target is `X.name` when the file-existence predicate (abstracting
`os.path.isfile`) holds of `<root>/<X-as-path>/<name>.py` or of
`<root>/<X-as-path>/<name>/__init__.py`, and is `X` alone otherwise. -/
theorem C1_from_import_edges (fileExists : PyStr → Bool)
    (root caller_module m : PyStr) (names : List PyStr) (hm : m ≠ []) :
    analyze_imports fileExists root caller_module
      [PyStmt.impFrom 0 (some m) names] =
    names.map (fun name =>
      (caller_module,
        if fileExists (osJoin root (pySplit '.' m ++ [name ++ ".py".toList]))
          || fileExists (osJoin root
            (pySplit '.' m ++ [name, "__init__.py".toList]))
        then m ++ '.' :: name else m)) ∧
    (analyze_imports fileExists root caller_module
      [PyStmt.impFrom 0 (some m) names]).length = names.length := by
  refine ⟨?_, ?_⟩ <;> simp [analyze_imports, hm, apply_ite]

theorem C1_witness :
    analyze_imports (fun p => decide (p = "/r/x/a.py".toList)) "/r".toList
      "r.m".toList
      [PyStmt.impFrom 0 (some "x".toList) ["a".toList, "b".toList]] =
    [("r.m".toList, "x.a".toList), ("r.m".toList, "x".toList)] :=
  ((C1_from_import_edges (fun p => decide (p = "/r/x/a.py".toList))
    "/r".toList "r.m".toList "x".toList ["a".toList, "b".toList]
    (by decide)).1).trans (by decide)

theorem pySplit_ne_nil (sep : Char) (s : PyStr) : pySplit sep s ≠ [] := by
  induction s with
  | nil => simp [pySplit]
  | cons c rest ih =>
    rw [pySplit]
    cases hres : pySplit sep rest with
    | nil => exact absurd hres ih
    | cons h t => by_cases hc : c = sep <;> simp [hc]

theorem pySplit_cons_sep (sep : Char) (s : PyStr) :
    pySplit sep (sep :: s) = [] :: pySplit sep s := by
  rw [pySplit]
  cases hres : pySplit sep s with
  | nil => exact absurd hres (pySplit_ne_nil sep s)
  | cons h t => simp

theorem pySplit_cons_ne (sep c : Char) (s : PyStr) (hc : c ≠ sep) :
    pySplit sep (c :: s) =
      (c :: (pySplit sep s).headD []) :: (pySplit sep s).tail := by
  rw [pySplit]
  cases hres : pySplit sep s with
  | nil => exact absurd hres (pySplit_ne_nil sep s)
  | cons h t => simp [hc]

theorem pySplit_no_sep {sep : Char} {s : PyStr} (h : sep ∉ s) :
    pySplit sep s = [s] := by
  induction s with
  | nil => rfl
  | cons c rest ih =>
    have hc : c ≠ sep := fun hcc => h (hcc ▸ List.mem_cons_self _ _)
    have hrest : sep ∉ rest := fun hr => h (List.mem_cons_of_mem _ hr)
    rw [pySplit_cons_ne sep c rest hc, ih hrest]
    rfl

theorem pySplit_append_sep {sep : Char} {x : PyStr} (r : PyStr)
    (h : sep ∉ x) : pySplit sep (x ++ sep :: r) = x :: pySplit sep r := by
  induction x with
  | nil => exact pySplit_cons_sep sep r
  | cons c x' ih =>
    have hc : c ≠ sep := fun hcc => h (hcc ▸ List.mem_cons_self _ _)
    have hx' : sep ∉ x' := fun hr => h (List.mem_cons_of_mem _ hr)
    rw [List.cons_append, pySplit_cons_ne sep c _ hc, ih hx']
    rfl

theorem pyJoin_cons (sep : PyStr) (p : PyStr) {ps : List PyStr}
    (h : ps ≠ []) : pyJoin sep (p :: ps) = p ++ sep ++ pyJoin sep ps := by
  cases ps with
  | nil => exact absurd rfl h
  | cons q t => rfl

theorem pySplit_pyJoin {sep : Char} :
    ∀ {parts : List PyStr}, parts ≠ [] → (∀ p ∈ parts, sep ∉ p) →
      pySplit sep (pyJoin [sep] parts) = parts
  | [], h, _ => absurd rfl h
  | [p], _, hsep => by
    rw [show pyJoin [sep] [p] = p from rfl]
    exact pySplit_no_sep (hsep p (List.mem_cons_self _ _))
  | p :: q :: t, _, hsep => by
    rw [pyJoin_cons [sep] p (by simp)]
    have hp : sep ∉ p := hsep p (List.mem_cons_self _ _)
    have : p ++ [sep] ++ pyJoin [sep] (q :: t) =
        p ++ sep :: pyJoin [sep] (q :: t) := by simp
    rw [this, pySplit_append_sep _ hp,
      pySplit_pyJoin (by simp) (fun x hx => hsep x (List.mem_cons_of_mem _ hx))]

theorem pyStartsWith_append (p t : PyStr) : pyStartsWith (p ++ t) p = true := by
  induction p with
  | nil => cases t <;> rfl
  | cons c p' ih => simp [pyStartsWith, ih]

theorem pyEndsWith_append (t s : PyStr) : pyEndsWith (t ++ s) s = true := by
  rw [pyEndsWith, List.reverse_append]
  exact pyStartsWith_append s.reverse t.reverse

theorem pyJoin_append (sep : PyStr) {xs ys : List PyStr} (hx : xs ≠ [])
    (hy : ys ≠ []) :
    pyJoin sep (xs ++ ys) = pyJoin sep xs ++ sep ++ pyJoin sep ys := by
  induction xs with
  | nil => exact absurd rfl hx
  | cons x xs' ih =>
    cases hxs' : xs' with
    | nil =>
      cases ys with
      | nil => exact absurd rfl hy
      | cons y t => simp [pyJoin]
    | cons a b =>
      rw [List.cons_append, pyJoin_cons sep x (by simp [hxs']),
        pyJoin_cons sep x (by simp [hxs']), ← hxs', ih (by simp [hxs'])]
      simp

theorem pyJoin_eq_append_last (sep : Char) (xs : List PyStr) (l : PyStr) :
    ∃ t, pyJoin [sep] (xs ++ [l]) = t ++ l := by
  induction xs with
  | nil => exact ⟨[], rfl⟩
  | cons x xs' ih =>
    obtain ⟨t, ht⟩ := ih
    refine ⟨x ++ [sep] ++ t, ?_⟩
    rw [List.cons_append, pyJoin_cons [sep] x (by simp), ht]
    simp

theorem commonPrefixLen_append (xs ys : List PyStr) :
    commonPrefixLen xs (xs ++ ys) = xs.length := by
  induction xs with
  | nil => cases ys <;> rfl
  | cons x xs' ih => simp [commonPrefixLen, ih]

theorem commonPrefixLen_le (xs : List PyStr) :
    ∀ ys, commonPrefixLen xs ys ≤ xs.length := by
  induction xs with
  | nil => intro ys; cases ys <;> simp [commonPrefixLen]
  | cons x xs' ih =>
    intro ys
    cases ys with
    | nil => simp [commonPrefixLen]
    | cons y t =>
      by_cases hxy : x = y <;> simp [commonPrefixLen, hxy]
      exact ih t

theorem commonPrefixLen_eq_length {xs ys : List PyStr}
    (h : commonPrefixLen xs ys = xs.length) : ys.take xs.length = xs := by
  induction xs generalizing ys with
  | nil => simp
  | cons x xs' ih =>
    cases ys with
    | nil => simp [commonPrefixLen] at h
    | cons y t =>
      by_cases hxy : x = y
      · subst hxy
        simp only [commonPrefixLen, if_true, eq_self_iff_true,
          List.length_cons, Nat.add_right_cancel_iff] at h
        simp [ih h]
      · simp [commonPrefixLen, hxy] at h

/-- The absolute POSIX path with the given components. -/
def absPath (parts : List PyStr) : PyStr := '/' :: pyJoin ['/'] parts

/-- Well-formed path components: at least one, each nonempty and free of
the separator. -/
def GoodParts (parts : List PyStr) : Prop :=
  parts ≠ [] ∧ ∀ p ∈ parts, p ≠ [] ∧ '/' ∉ p

theorem pySplit_absPath {parts : List PyStr} (h : GoodParts parts) :
    pySplit '/' (absPath parts) = [] :: parts := by
  rw [absPath, pySplit_cons_sep,
    pySplit_pyJoin h.1 (fun p hp => (h.2 p hp).2)]

theorem filterSplit_absPath {parts : List PyStr} (h : GoodParts parts) :
    (pySplit '/' (absPath parts)).filter (fun x => !x.isEmpty) = parts := by
  rw [pySplit_absPath h]
  have h1 : ((([] : PyStr) :: parts).filter (fun x => !x.isEmpty)) =
      parts.filter (fun x => !x.isEmpty) := by simp
  rw [h1, List.filter_eq_self.mpr]
  intro a ha
  simpa using (h.2 a ha).1

theorem segsOf_absPath {parts : List PyStr} (h : GoodParts parts) :
    segsOf (absPath parts) = parts :=
  filterSplit_absPath h

theorem absPath_append {xs ys : List PyStr} (hx : xs ≠ []) (hy : ys ≠ []) :
    absPath (xs ++ ys) = absPath xs ++ '/' :: pyJoin ['/'] ys := by
  rw [absPath, absPath, pyJoin_append ['/'] hx hy]
  simp

theorem relpath_absPath {rootParts relParts : List PyStr}
    (hroot : GoodParts rootParts) (hrel : GoodParts relParts) :
    relpath (absPath (rootParts ++ relParts)) (absPath rootParts) =
      pyJoin ['/'] relParts := by
  have hgood : GoodParts (rootParts ++ relParts) := by
    refine ⟨by simp [hroot.1], ?_⟩
    intro p hp
    rcases List.mem_append.mp hp with h | h
    · exact hroot.2 p h
    · exact hrel.2 p h
  rw [relpath]
  simp only [filterSplit_absPath hgood, filterSplit_absPath hroot,
    commonPrefixLen_append, Nat.sub_self, List.replicate_zero,
    List.nil_append, List.drop_left]
  rw [if_neg]
  simp [hrel.1]

/-- `pyJoin` on a component list with its last element singled out. -/
theorem pyJoin_split_last (sep : Char) (xs : List PyStr) (l : PyStr) :
    pyJoin [sep] (xs ++ [l]) =
      (if xs.isEmpty then [] else pyJoin [sep] xs ++ [sep]) ++ l := by
  induction xs with
  | nil => simp [pyJoin]
  | cons x xs' ih =>
    rw [show (x :: xs') ++ [l] = x :: (xs' ++ [l]) from rfl,
      pyJoin_cons [sep] x (by simp)]
    cases hxs' : xs' with
    | nil => simp [pyJoin, ih]
    | cons a b =>
      rw [← hxs', ih, pyJoin_cons [sep] x (by simp [hxs'])]
      have hne : xs'.isEmpty = false := by simp [hxs']
      simp [hne, List.append_assoc]

/-- Characterization of `get_module_name` on a well-formed file under the
root: the result is the root directory's own name, then the file's
root-relative components with the `.py` extension stripped from the last
one and separators replaced by dots. -/
theorem get_module_name_char (rootParts relParts : List PyStr) (base : PyStr)
    (hroot : GoodParts rootParts)
    (hrel : GoodParts (relParts ++ [base ++ ".py".toList]))
    (hdot : pyStartsWith (pyJoin ['/'] (relParts ++ [base ++ ".py".toList]))
      "..".toList = false) :
    get_module_name (absPath rootParts)
      (absPath (rootParts ++ (relParts ++ [base ++ ".py".toList]))) =
    some (rootParts.getLastD [] ++ '.' ::
      pyJoin ['.'] (relParts ++ [base])) := by
  have hbase_nosep : '/' ∉ base := by
    have h2 := (hrel.2 (base ++ ".py".toList) (by simp)).2
    intro hc
    exact h2 (List.mem_append.mpr (Or.inl hc))
  have hrelne : relParts ++ [base ++ ".py".toList] ≠ [] := by simp
  have hassoc : rootParts ++ (relParts ++ [base ++ ".py".toList]) =
      (rootParts ++ relParts) ++ [base ++ ".py".toList] := by
    rw [List.append_assoc]
  have hends : pyEndsWith
      (absPath (rootParts ++ (relParts ++ [base ++ ".py".toList])))
      ".py".toList = true := by
    obtain ⟨t, ht⟩ := pyJoin_eq_append_last '/' (rootParts ++ relParts)
      (base ++ ".py".toList)
    rw [absPath, hassoc, ht,
      show t ++ (base ++ ".py".toList) = (t ++ base) ++ ".py".toList from by
        simp,
      show ('/' :: ((t ++ base) ++ ".py".toList)) =
        ('/' :: (t ++ base)) ++ ".py".toList from rfl]
    exact pyEndsWith_append _ _
  have hstarts : pyStartsWith
      (absPath (rootParts ++ (relParts ++ [base ++ ".py".toList])))
      (absPath rootParts) = true := by
    rw [absPath_append hroot.1 hrelne]
    exact pyStartsWith_append _ _
  have hrp : relpath
      (absPath (rootParts ++ (relParts ++ [base ++ ".py".toList])))
      (absPath rootParts) = pyJoin ['/'] (relParts ++ [base ++ ".py".toList]) :=
    relpath_absPath hroot hrel
  have hstrip : (pyJoin ['/'] (relParts ++ [base ++ ".py".toList])).take
      ((pyJoin ['/'] (relParts ++ [base ++ ".py".toList])).length - 3) =
      pyJoin ['/'] (relParts ++ [base]) := by
    rw [pyJoin_split_last '/' relParts (base ++ ".py".toList),
        pyJoin_split_last '/' relParts base,
        show (if relParts.isEmpty then [] else pyJoin ['/'] relParts ++ ['/'])
            ++ (base ++ ".py".toList) =
          ((if relParts.isEmpty then [] else pyJoin ['/'] relParts ++ ['/'])
            ++ base) ++ ".py".toList from by simp]
    have hlen : (((if relParts.isEmpty then [] else
        pyJoin ['/'] relParts ++ ['/']) ++ base) ++ ".py".toList).length - 3 =
        ((if relParts.isEmpty then [] else pyJoin ['/'] relParts ++ ['/'])
          ++ base).length := by
      simp
      omega
    rw [hlen, List.take_left]
  have hsplitstrip : pySplit '/' (pyJoin ['/'] (relParts ++ [base])) =
      relParts ++ [base] := by
    refine pySplit_pyJoin (by simp) ?_
    intro p hp
    rcases List.mem_append.mp hp with h | h
    · exact (hrel.2 p (List.mem_append.mpr (Or.inl h))).2
    · rw [List.mem_singleton.mp h]
      exact hbase_nosep
  have hlastroot : (pySplit '/' (absPath rootParts)).getLastD [] =
      rootParts.getLastD [] := by
    rw [pySplit_absPath hroot]
    cases rootParts with
    | nil => exact absurd rfl hroot.1
    | cons r rs => rw [List.getLastD_cons]
  rw [get_module_name, hends, hstarts]
  simp only [Bool.not_true, Bool.or_self, Bool.false_eq_true, if_false]
  rw [hrp, hdot]
  simp only [Bool.false_eq_true, if_false]
  rw [hstrip, hsplitstrip, hlastroot]

/-- **C7.** For every accepted well-formed `(root, filePath)` pair — the
file is `root ++ rel` with nonempty separator-free components, the last
component ending in `.py`, and the relative path not starting with `..` —
`get_module_name` returns the root directory's own name, then the file's
root-relative path with only the `.py` extension stripped and separators
replaced by dots.  In particular a package initializer `pkg/__init__.py`
maps to an identifier ending in `pkg.__init__`: only the extension is
stripped, the `__init__` segment is not collapsed (see the witness). -/
theorem C7_get_module_name_form (rootParts relParts : List PyStr)
    (base : PyStr) (hroot : GoodParts rootParts)
    (hrel : GoodParts (relParts ++ [base ++ ".py".toList]))
    (hdot : pyStartsWith (pyJoin ['/'] (relParts ++ [base ++ ".py".toList]))
      "..".toList = false) :
    get_module_name (absPath rootParts)
      (absPath (rootParts ++ (relParts ++ [base ++ ".py".toList]))) =
    some (rootParts.getLastD [] ++ '.' ::
      pyJoin ['.'] (relParts ++ [base])) :=
  get_module_name_char rootParts relParts base hroot hrel hdot

theorem C7_witness :
    get_module_name (absPath [['r']])
      (absPath ([['r']] ++ (["pkg".toList] ++
        ["__init__".toList ++ ".py".toList]))) =
      some (([['r']] : List PyStr).getLastD [] ++ '.' ::
        pyJoin ['.'] (["pkg".toList] ++ ["__init__".toList])) ∧
    ([['r']] : List PyStr).getLastD [] ++ '.' ::
      pyJoin ['.'] (["pkg".toList] ++ ["__init__".toList]) =
      "r.pkg.__init__".toList :=
  ⟨C7_get_module_name_form [['r']] ["pkg".toList] "__init__".toList
    ⟨by decide, by decide⟩ ⟨by decide, by decide⟩ (by decide), by decide⟩

/-- A separator-free block followed by the separator determines both the
block and the remainder. -/
theorem sep_split_unique {sep : Char} :
    ∀ (a b t u : PyStr), sep ∉ a → sep ∉ b →
      a ++ sep :: t = b ++ sep :: u → a = b ∧ t = u
  | [], [], _, _, _, _, h => by simpa using h
  | [], c :: b', _, _, _, hb, h => by
    simp only [List.nil_append, List.cons_append, List.cons.injEq] at h
    exact absurd (by rw [h.1]; exact List.mem_cons_self _ _) hb
  | c :: a', [], _, _, ha, _, h => by
    simp only [List.nil_append, List.cons_append, List.cons.injEq] at h
    exact absurd (by rw [← h.1]; exact List.mem_cons_self _ _) ha
  | c :: a', d :: b', t, u, ha, hb, h => by
    simp only [List.cons_append, List.cons.injEq] at h
    obtain ⟨rfl, h2⟩ := h
    obtain ⟨h3, h4⟩ := sep_split_unique a' b' t u
      (fun hm => ha (List.mem_cons_of_mem _ hm))
      (fun hm => hb (List.mem_cons_of_mem _ hm)) h2
    exact ⟨by rw [h3], h4⟩

/-- `pyJoin` with a separator is injective on separator-free component
lists. -/
theorem pyJoin_inj {sep : Char} :
    ∀ (xs ys : List PyStr), (∀ p ∈ xs, sep ∉ p) → (∀ p ∈ ys, sep ∉ p) →
      xs ≠ [] → ys ≠ [] → pyJoin [sep] xs = pyJoin [sep] ys → xs = ys
  | [], _, _, _, hne, _, _ => absurd rfl hne
  | _ :: _, [], _, _, _, hne, _ => absurd rfl hne
  | [x], [y], _, _, _, _, h => by
    rw [show pyJoin [sep] [x] = x from rfl,
      show pyJoin [sep] [y] = y from rfl] at h
    rw [h]
  | [x], y :: y2 :: yt, hx, _, _, _, h => by
    exfalso
    rw [show pyJoin [sep] [x] = x from rfl,
      pyJoin_cons [sep] y (by simp)] at h
    exact hx x (by simp) (by rw [h]; simp)
  | x :: x2 :: xt, [y], _, hy, _, _, h => by
    exfalso
    rw [show pyJoin [sep] [y] = y from rfl,
      pyJoin_cons [sep] x (by simp)] at h
    exact hy y (by simp) (by rw [← h]; simp)
  | x :: x2 :: xt, y :: y2 :: yt, hx, hy, _, _, h => by
    rw [pyJoin_cons [sep] x (by simp), pyJoin_cons [sep] y (by simp),
      List.append_assoc, List.append_assoc] at h
    simp only [List.singleton_append] at h
    obtain ⟨h1, h2⟩ := sep_split_unique x y _ _ (hx x (by simp))
      (hy y (by simp)) h
    have h3 := pyJoin_inj (x2 :: xt) (y2 :: yt)
      (fun p hp => hx p (List.mem_cons_of_mem _ hp))
      (fun p hp => hy p (List.mem_cons_of_mem _ hp))
      (by simp) (by simp) h2
    rw [h1, h3]

/-- A dot-free relative path (apart from the `.py` extension) never trips
the `..` safety guard. -/
theorem rel_join_not_dotdot (relParts : List PyStr) (base : PyStr)
    (hgood : GoodParts (relParts ++ [base ++ ".py".toList]))
    (hdot : ∀ p ∈ relParts ++ [base], '.' ∉ p) :
    pyStartsWith (pyJoin ['/'] (relParts ++ [base ++ ".py".toList]))
      "..".toList = false := by
  cases relParts with
  | nil =>
    cases base with
    | nil => decide
    | cons c cs =>
      have hc : c ≠ '.' := fun hcc =>
        (hdot (c :: cs) (by simp)) (by rw [hcc]; exact List.mem_cons_self _ _)
      show pyStartsWith (c :: (cs ++ ".py".toList)) ('.' :: '.' :: []) = false
      simp [pyStartsWith, hc]
  | cons p ps =>
    obtain ⟨hpne, -⟩ := hgood.2 p (by simp)
    cases p with
    | nil => exact absurd rfl hpne
    | cons c cs =>
      have hc : c ≠ '.' := fun hcc =>
        (hdot (c :: cs) (by simp)) (by rw [hcc]; exact List.mem_cons_self _ _)
      rw [List.cons_append, pyJoin_cons ['/'] (c :: cs) (by simp)]
      show pyStartsWith (c :: (cs ++ ['/'] ++ _)) ('.' :: '.' :: []) = false
      simp [pyStartsWith, hc]

/-- **C6 (amended).** Within a single root, `get_module_name` is injective
on well-formed files whose path components contain no dot apart from the
`.py` extension.  The source never collapses a package initializer —
`pkg/__init__.py` maps to `pkg.__init__`, which collides with nothing — so
no initializer exception arises; instead injectivity genuinely fails for
names containing extra dots (see the counterexample). -/
theorem C6_injective_dotfree (rootParts relParts1 relParts2 : List PyStr)
    (base1 base2 : PyStr) (hroot : GoodParts rootParts)
    (h1 : GoodParts (relParts1 ++ [base1 ++ ".py".toList]))
    (h2 : GoodParts (relParts2 ++ [base2 ++ ".py".toList]))
    (hd1 : ∀ p ∈ relParts1 ++ [base1], '.' ∉ p)
    (hd2 : ∀ p ∈ relParts2 ++ [base2], '.' ∉ p)
    (heq : get_module_name (absPath rootParts)
        (absPath (rootParts ++ (relParts1 ++ [base1 ++ ".py".toList]))) =
      get_module_name (absPath rootParts)
        (absPath (rootParts ++ (relParts2 ++ [base2 ++ ".py".toList])))) :
    relParts1 = relParts2 ∧ base1 = base2 := by
  rw [get_module_name_char _ _ _ hroot h1 (rel_join_not_dotdot _ _ h1 hd1),
    get_module_name_char _ _ _ hroot h2 (rel_join_not_dotdot _ _ h2 hd2)]
    at heq
  have heq2 := Option.some.inj heq
  have heq3 : ('.' :: pyJoin ['.'] (relParts1 ++ [base1])) =
      ('.' :: pyJoin ['.'] (relParts2 ++ [base2])) :=
    List.append_cancel_left heq2
  have heq4 : pyJoin ['.'] (relParts1 ++ [base1]) =
      pyJoin ['.'] (relParts2 ++ [base2]) := (List.cons_eq_cons.mp heq3).2
  have heq5 := pyJoin_inj _ _ hd1 hd2 (by simp) (by simp) heq4
  have hrev := congrArg List.reverse heq5
  simp only [List.reverse_append, List.reverse_singleton,
    List.singleton_append] at hrev
  obtain ⟨hb, hr⟩ := List.cons_eq_cons.mp hrev
  exact ⟨List.reverse_injective hr, hb⟩

/-- **C6 counterexample.** Two distinct accepted files under the same root
map to the same ModuleId with no `__init__` involved: `/r/a.b.py` and
`/r/a/b.py` both canonicalize to `r.a.b`. -/
theorem C6_counterexample :
    get_module_name "/r".toList "/r/a.b.py".toList =
      get_module_name "/r".toList "/r/a/b.py".toList ∧
    get_module_name "/r".toList "/r/a.b.py".toList = some "r.a.b".toList ∧
    "/r/a.b.py".toList ≠ "/r/a/b.py".toList := by
  decide

theorem C6_witness :
    ["a".toList] = ["a".toList] ∧ "b".toList = "b".toList :=
  C6_injective_dotfree [['r']] ["a".toList] ["a".toList] "b".toList
    "b".toList ⟨by decide, by decide⟩ ⟨by decide, by decide⟩
    ⟨by decide, by decide⟩ (by decide) (by decide) (by decide)

theorem pyStartsWith_join_dotdot (rest : List PyStr) :
    pyStartsWith (pyJoin ['/'] ("..".toList :: rest)) "..".toList = true := by
  cases rest with
  | nil => decide
  | cons a b =>
    rw [pyJoin_cons ['/'] "..".toList (by simp)]
    show pyStartsWith ('.' :: '.' :: ('/' :: pyJoin ['/'] (a :: b)))
      ('.' :: '.' :: []) = true
    simp [pyStartsWith]

/-- **C10.** `get_module_name` returns `none` for every file path that is
not genuinely located under the root directory — the root's components are
not a prefix of the file's components — even when the file's path string
begins with the root path as a plain string prefix (e.g. root `/x/pkgA`
and file `/x/pkgAB/m.py`): the `startswith` test alone would accept it,
but the relative path then begins with `..` and the safety guard rejects
it. -/
theorem C10_escaping_path_none (root file_path : PyStr)
    (hpre : pyStartsWith file_path root = true)
    (hnot : (segsOf file_path).take (segsOf root).length ≠ segsOf root) :
    get_module_name root file_path = none := by
  rw [get_module_name]
  by_cases hend : pyEndsWith file_path ".py".toList
  case neg =>
    have h0 : pyEndsWith file_path ['.', 'p', 'y'] = false :=
      Bool.eq_false_iff.mpr hend
    simp [h0]
  case pos =>
    rw [hend, hpre]
    simp only [Bool.not_true, Bool.or_self, Bool.false_eq_true, if_false]
    have hlt : commonPrefixLen (segsOf root) (segsOf file_path) <
        (segsOf root).length := by
      rcases Nat.lt_or_ge (commonPrefixLen (segsOf root) (segsOf file_path))
        (segsOf root).length with h | h
      · exact h
      · exact absurd (commonPrefixLen_eq_length (Nat.le_antisymm
          (commonPrefixLen_le (segsOf root) (segsOf file_path)) h)) hnot
    obtain ⟨k, hk⟩ : ∃ k, (segsOf root).length -
        commonPrefixLen (segsOf root) (segsOf file_path) = k + 1 :=
      ⟨(segsOf root).length -
        commonPrefixLen (segsOf root) (segsOf file_path) - 1, by omega⟩
    have hrelpath : relpath file_path root = pyJoin ['/'] ("..".toList ::
        (List.replicate k "..".toList ++ (segsOf file_path).drop
          (commonPrefixLen (segsOf root) (segsOf file_path)))) := by
      simp only [relpath, segsOf] at hk ⊢
      rw [hk, List.replicate_succ, List.cons_append, if_neg (by simp)]
    simp only [hrelpath, pyStartsWith_join_dotdot, if_true]

theorem C10_witness :
    get_module_name "/x/pkgA".toList "/x/pkgAB/m.py".toList = none :=
  C10_escaping_path_none "/x/pkgA".toList "/x/pkgAB/m.py".toList
    (by decide) (by decide)

/-- The `local_outside_deps` list is empty exactly when every local
module's resolvable import stays inside the directory subtree. -/
theorem localOutsideDeps_eq_nil_iff (table : List (PyStr × PyStr))
    (all_imports : List ImpEdge) (dirpath : PyStr) (mods : List PyStr) :
    localOutsideDeps table all_imports dirpath mods = [] ↔
      ∀ module ∈ mods, ∀ e ∈ all_imports, e.1 = module →
        ∀ p, lookupA table e.2 = some p →
          relativeToOk p dirpath = true := by
  rw [List.eq_nil_iff_forall_not_mem]
  constructor
  · intro h module hmod e he hfst p hp
    by_contra hrel
    apply h e
    simp only [localOutsideDeps, List.mem_flatMap, List.mem_filterMap]
    refine ⟨module, hmod, e, he, ?_⟩
    rw [if_pos (by simpa using hfst), hp]
    dsimp only
    rw [if_neg hrel]
  · intro h x hx
    simp only [localOutsideDeps, List.mem_flatMap, List.mem_filterMap] at hx
    obtain ⟨module, hmod, e, he, hsome⟩ := hx
    by_cases hfst : e.1 = module
    case neg =>
      rw [if_neg (by simpa using hfst)] at hsome
      exact Option.noConfusion hsome
    case pos =>
      rw [if_pos (by simpa using hfst)] at hsome
      cases hp : lookupA table e.2 with
      | none =>
        rw [hp] at hsome
        exact Option.noConfusion hsome
      | some p =>
        rw [hp] at hsome
        dsimp only at hsome
        by_cases hrel : relativeToOk p dirpath = true
        · rw [if_pos hrel] at hsome
          exact Option.noConfusion hsome
        · exact hrel (h module hmod e he hfst p hp)

/-- **C8.** In the `encapsulated_dir` walk, a visited directory is
reported exactly when it contains at least one local module (a source
file directly in it, non-recursively) and every edge whose caller is a
local module and whose target resolves to a known file keeps that target's
file inside the directory's own subtree; in particular a directory with
zero local modules is never reported. -/
theorem C8_encapsulated_iff (module_to_path : List (PyStr × PyStr))
    (all_imports : List ImpEdge) (root_dir dirpath : PyStr)
    (filenames : List PyStr) :
    (encapsulatedDirReported module_to_path all_imports root_dir dirpath
        filenames = true ↔
      (localModules module_to_path root_dir dirpath filenames ≠ [] ∧
        ∀ module ∈ localModules module_to_path root_dir dirpath filenames,
          ∀ e ∈ all_imports, e.1 = module →
            ∀ p, lookupA module_to_path e.2 = some p →
              relativeToOk p dirpath = true)) ∧
    (localModules module_to_path root_dir dirpath filenames = [] →
      encapsulatedDirReported module_to_path all_imports root_dir dirpath
        filenames = false) := by
  constructor
  · rw [encapsulatedDirReported, Bool.and_eq_true, Bool.not_eq_true',
      List.isEmpty_eq_false, List.isEmpty_iff,
      localOutsideDeps_eq_nil_iff]
  · intro hnil
    rw [encapsulatedDirReported, hnil]
    simp

theorem C4_witness : "a".toList ∈ noDeps exModules exImports :=
  (C4_noDeps_iff exModules exImports "a".toList).mpr
    ⟨by decide, by decide⟩

theorem C8_witness :
    encapsulatedDirReported
      [("r.a".toList, "/r/a.py".toList), ("r.b".toList, "/r/b.py".toList)]
      [("r.a".toList, "r.b".toList)] "/r".toList "/r".toList
      ["a.py".toList, "b.py".toList] = true :=
  ((C8_encapsulated_iff
    [("r.a".toList, "/r/a.py".toList), ("r.b".toList, "/r/b.py".toList)]
    [("r.a".toList, "r.b".toList)] "/r".toList "/r".toList
    ["a.py".toList, "b.py".toList]).1).mpr ⟨by decide, by decide⟩
